import Mathlib

set_option maxHeartbeats 1000000

/-!
Verification development for the Patterm repository: the React frontend
(App.jsx, ConsentBadge.jsx, useApi hooks) and the spec-described encrypted
vault core (audit chain, consent gating, sessions, encryption).

JavaScript strings are modelled as lists of characters; JavaScript arrays as
Lean lists; absent object properties and undefined values as Option.none.
-/

/-- JS String.prototype.split with a one-character separator: splits at every
occurrence of the separator and always returns at least one, possibly empty,
segment. -/
def jsSplit (sep : Char) : List Char → List (List Char)
  | [] => [[]]
  | c :: rest =>
    if c = sep then [] :: jsSplit sep rest
    else
      match jsSplit sep rest with
      | [] => [[c]]
      | s :: ss => (c :: s) :: ss

/-- JS String.prototype.trim: drop whitespace from both ends. -/
def trimList (l : List Char) : List Char :=
  ((l.dropWhile Char.isWhitespace).reverse.dropWhile Char.isWhitespace).reverse

/-- JS String.prototype.toLowerCase, restricted to the per-character case map. -/
def jsToLower (l : List Char) : List Char :=
  l.map Char.toLower

/-- Result entries of parseOpeningHours in App.jsx. -/
structure OpeningHour where
  weekday : Nat
  opens_at : List Char
  closes_at : List Char
deriving DecidableEq

/-- The weekdayLookup object of App.jsx: German two-letter weekday keys. -/
def weekdayLookup (key : List Char) : Option Nat :=
  if key = "mo".toList then some 0
  else if key = "di".toList then some 1
  else if key = "mi".toList then some 2
  else if key = "do".toList then some 3
  else if key = "fr".toList then some 4
  else if key = "sa".toList then some 5
  else if key = "so".toList then some 6
  else none

/-- The per-line body of parseOpeningHours (App.jsx lines 92 to 99): split the
line at every colon, keep the first two segments as day part and time part,
reject missing or empty parts, look the weekday up, split the time part at
every dash and trim, reject a missing or empty opening or closing time. -/
def parseOpeningLine (line : List Char) : Option OpeningHour :=
  match jsSplit ':' line with
  | [] => none
  | dayPart :: restParts =>
    match restParts.head? with
    | none => none
    | some timePart =>
      if dayPart = [] ∨ timePart = [] then none
      else
        match weekdayLookup ((jsToLower dayPart).take 2) with
        | none => none
        | some weekday =>
          match (jsSplit '-' timePart).map trimList with
          | [] => none
          | opens_at :: restSegs =>
            match restSegs.head? with
            | none => none
            | some closes_at =>
              if opens_at = [] ∨ closes_at = [] then none
              else some ⟨weekday, opens_at, closes_at⟩

/-- parseOpeningHours from App.jsx lines 86 to 101: empty input gives no
entries; otherwise split into lines, trim each, drop blank lines, parse each
line, and silently drop lines that do not parse. -/
def parseOpeningHours (value : List Char) : List OpeningHour :=
  if value = [] then []
  else
    (((jsSplit '\n' value).map trimList).filter (fun l => l ≠ [])).filterMap
      parseOpeningLine

/-- The filter step of the specialty cleaning pipeline in handleSpecialtySave
(App.jsx lines 403 to 405): on the already-trimmed array, keep an entry when it
is non-empty and this index is the first occurrence of the entry (the JS
predicate is entry and array.indexOf(entry) === index). seen collects all
earlier elements of the trimmed array. -/
def specialtyFilter (seen : List (List Char)) : List (List Char) → List (List Char)
  | [] => []
  | x :: xs =>
    if x ≠ [] ∧ x ∉ seen then x :: specialtyFilter (x :: seen) xs
    else specialtyFilter (x :: seen) xs

/-- The cleaned value computed by handleSpecialtySave (App.jsx lines 403 to
405): map String.prototype.trim over the draft, then apply the
non-empty-and-first-occurrence filter. -/
def handleSpecialtySaveCleaned (adminCatalogDraft : List (List Char)) : List (List Char) :=
  specialtyFilter [] (adminCatalogDraft.map trimList)

/-- A patient appointment object as rendered by App.jsx; the sort comparator
only reads the start field, the remaining payload is kept abstract. -/
structure Appointment where
  slot_id : List Char
  start : List Char
  payload : List Char
deriving DecidableEq

/-- JS Array.prototype.sort with the numeric comparator of App.jsx line 1036,
comparing a and b by jsDate a.start - jsDate b.start, where jsDate stands for
the numeric value of new Date(iso). Array.prototype.sort with a consistent
comparator is modelled by a stable merge sort. -/
def jsSortByStart (jsDate : List Char → Int) (l : List Appointment) : List Appointment :=
  l.mergeSort (fun a b => decide (jsDate a.start - jsDate b.start ≤ 0))

/-- sortedPatientAppointments (App.jsx lines 1034 to 1038): sort a spread copy
of patientRecord.appointments by ascending start date. The spread copy is the
identity on the list value; Lean list values are immutable, which is exactly
the non-aliasing the spread achieves in JS. -/
def sortedPatientAppointments (jsDate : List Char → Int)
    (patientAppointments : List Appointment) : List Appointment :=
  jsSortByStart jsDate patientAppointments

/-- Failure causes a clinic patient-record lookup can encounter; the frontend
receives them as a rejected promise. -/
inductive ApiFailure where
  | authorizationDenied
  | missingRecord
  | corruption
  | networkFailure
  | other (detail : List Char)
deriving DecidableEq

/-- A decoded patient-record response as held in frontend state. -/
structure PatientRecordView where
  raw : List Char
deriving DecidableEq

/-- The two state fields handleClinicPatientLookup writes. -/
structure ClinicLookupState where
  clinicPatientRecord : Option PatientRecordView
  clinicPatientError : List Char
deriving DecidableEq

/-- handleClinicPatientLookup (App.jsx lines 1015 to 1029): with an empty
patient id the handler returns without touching state; on a successful fetch it
stores the record and clears the error; on any failure it clears the record and
sets one fixed message, never reading the error value. -/
def handleClinicPatientLookup (clinicPatientId : List Char)
    (result : Except ApiFailure PatientRecordView)
    (st : ClinicLookupState) : ClinicLookupState :=
  if clinicPatientId = [] then st
  else
    match result with
    | .ok record => { clinicPatientRecord := some record, clinicPatientError := [] }
    | .error _ =>
        { clinicPatientRecord := none
          clinicPatientError := "Patientenakte konnte nicht geladen werden.".toList }

/-- The logged-in user object as read by handleConsentChange. -/
structure FrontendUser where
  id : List Char
deriving DecidableEq

/-- The argument object of a call to the updateConsent hook: every property
name that either the call site in App.jsx or the hook in useApi.js mentions;
a property the call site does not set is none, matching the undefined value JS
destructuring yields for an absent key. -/
structure UpdateConsentArgs where
  patientId : Option (List Char)
  requesterClinicId : Option (List Char)
  requesterFacilityId : Option (List Char)
  grant : Option Bool
deriving DecidableEq

/-- The JSON body posted by the updateConsent hook. -/
structure ConsentRequestBody where
  requester_clinic_id : Option (List Char)
  grant : Option Bool
deriving DecidableEq

/-- The request the updateConsent hook issues: path parameter and body. -/
structure ConsentRequest where
  urlPatientId : Option (List Char)
  body : ConsentRequestBody
deriving DecidableEq

/-- The updateConsent hook (useApi.js lines 87 to 93): destructures patientId,
requesterClinicId and grant from its argument object and posts
requester_clinic_id and grant to the per-patient consents route. -/
def updateConsent (args : UpdateConsentArgs) : ConsentRequest :=
  { urlPatientId := args.patientId
    body := { requester_clinic_id := args.requesterClinicId, grant := args.grant } }

/-- handleConsentChange (App.jsx lines 812 to 825, identical in
ConsentBadge.jsx lines 599 to 612): returns without a request when no user is
logged in; otherwise calls the updateConsent hook with the properties
patientId, requesterFacilityId and grant — the facility id travels under the
key requesterFacilityId, and no requesterClinicId property is set. -/
def handleConsentChange (user : Option FrontendUser) (facilityId : List Char)
    (grant : Bool) : Option ConsentRequest :=
  match user with
  | none => none
  | some u =>
      some (updateConsent
        { patientId := some u.id
          requesterClinicId := none
          requesterFacilityId := some facilityId
          grant := some grant })

/-- Modelled from the spec: the backend audit-log implementation is not under
src/. Spec section 3 defines hash = H(prev_hash and the serialized other
fields); H is an idealized collision-free hash, modelled as a free constructor
over the previous stored hash and every stored field of the entry other than
the hash itself. -/
inductive AuditHash where
  | genesis : AuditHash
  | node (prev : AuditHash) (sequence_no : Nat) (prev_hash : AuditHash)
      (actor_id : List Char) (action : List Char) (resource_id : List Char)
      (timestamp : Nat) (outcome : List Char) : AuditHash
deriving DecidableEq

/-- Modelled from the spec: AuditEntry of spec section 3 — sequence_no,
prev_hash, actor_id, action, resource_id, timestamp, outcome, hash. -/
structure AuditEntry where
  sequence_no : Nat
  prev_hash : AuditHash
  actor_id : List Char
  action : List Char
  resource_id : List Char
  timestamp : Nat
  outcome : List Char
  hash : AuditHash
deriving DecidableEq

/-- Modelled from the spec: the fields of one append call of spec section
4.3 plus the timestamp the entry records. -/
structure AuditInput where
  actor_id : List Char
  action : List Char
  resource_id : List Char
  timestamp : Nat
  outcome : List Char
deriving DecidableEq

/-- Modelled from the spec: recompute an entry hash from the stored fields of
the entry and the previous entry stored hash (spec section 4.3, verify). -/
def recomputeHash (prev : AuditHash) (e : AuditEntry) : AuditHash :=
  .node prev e.sequence_no e.prev_hash e.actor_id e.action e.resource_id
    e.timestamp e.outcome

/-- Modelled from the spec: append of spec section 4.3 — link the entry to the
previous stored hash, assign the sequence number, compute the hash over the
previous hash and all other fields. -/
def mkAuditEntry (prev : AuditHash) (seq : Nat) (i : AuditInput) : AuditEntry :=
  { sequence_no := seq
    prev_hash := prev
    actor_id := i.actor_id
    action := i.action
    resource_id := i.resource_id
    timestamp := i.timestamp
    outcome := i.outcome
    hash := .node prev seq prev i.actor_id i.action i.resource_id i.timestamp
      i.outcome }

/-- Modelled from the spec: the chain obtained by appending the given inputs in
order, starting after the stored hash prev with sequence number seq. -/
def buildFrom (prev : AuditHash) (seq : Nat) : List AuditInput → List AuditEntry
  | [] => []
  | i :: rest =>
    let e := mkAuditEntry prev seq i
    e :: buildFrom e.hash (seq + 1) rest

/-- Modelled from the spec: the global chain of N appended entries, sequence
numbers 1 to N, first entry linked to the genesis hash. -/
def buildChain (inputs : List AuditInput) : List AuditEntry :=
  buildFrom .genesis 1 inputs

/-- Modelled from the spec: the walk of verify (spec section 4.3) — recompute
each hash from the stored fields and the previous entry stored hash, and
return the first sequence number of the walk where the recomputed and the
stored hash diverge, or none when the range is valid. -/
def verifyFrom (prev : AuditHash) (seq : Nat) : List AuditEntry → Option Nat
  | [] => none
  | e :: rest =>
    if recomputeHash prev e = e.hash then verifyFrom e.hash (seq + 1) rest
    else some seq

/-- Modelled from the spec: VerifyAuditChain(1, N) over the full stored chain. -/
def verifyAuditChain (entries : List AuditEntry) : Option Nat :=
  verifyFrom .genesis 1 entries

/-- Two audit entries that agree everywhere except on exactly one stored
field. -/
abbrev DiffersInOneField (e e' : AuditEntry) : Prop :=
  (e'.sequence_no ≠ e.sequence_no ∧ e' = { e with sequence_no := e'.sequence_no }) ∨
  (e'.prev_hash ≠ e.prev_hash ∧ e' = { e with prev_hash := e'.prev_hash }) ∨
  (e'.actor_id ≠ e.actor_id ∧ e' = { e with actor_id := e'.actor_id }) ∨
  (e'.action ≠ e.action ∧ e' = { e with action := e'.action }) ∨
  (e'.resource_id ≠ e.resource_id ∧ e' = { e with resource_id := e'.resource_id }) ∨
  (e'.timestamp ≠ e.timestamp ∧ e' = { e with timestamp := e'.timestamp }) ∨
  (e'.outcome ≠ e.outcome ∧ e' = { e with outcome := e'.outcome }) ∨
  (e'.hash ≠ e.hash ∧ e' = { e with hash := e'.hash })

/-- Modelled from the spec: the profile of a PatientRecord (spec section 3). -/
structure Profile where
  first_name : List Char
  last_name : List Char
  date_of_birth : List Char
  phone_number : List Char
deriving DecidableEq

/-- Modelled from the spec: TreatmentNote of spec section 3 — version,
author_id, created_at, summary, optional next_steps. -/
structure TreatmentNote where
  version : Nat
  author_id : List Char
  created_at : List Char
  summary : List Char
  next_steps : Option (List Char)
deriving DecidableEq

/-- Modelled from the spec: the decrypted PatientRecord payload of spec
section 3 — profile, ordered appointments, consent set, ordered treatment
notes. Appointment references and facility ids are identifier strings. -/
structure PatientRecord where
  profile : Profile
  appointments : List (List Char)
  consents : List (List Char)
  treatment_notes : List TreatmentNote
deriving DecidableEq

/-- Look a patient id up in the association list of vault records. -/
def lookupRecord (p : List Char) :
    List (List Char × PatientRecord) → Option PatientRecord
  | [] => none
  | (q, r) :: rest => if q = p then some r else lookupRecord p rest

/-- Apply a mutation to the record stored under a patient id, leaving every
other record untouched. -/
def updateRecord (p : List Char) (f : PatientRecord → PatientRecord) :
    List (List Char × PatientRecord) → List (List Char × PatientRecord)
  | [] => []
  | (q, r) :: rest =>
    if q = p then (q, f r) :: rest else (q, r) :: updateRecord p f rest

/-- Modelled from the spec: the shared state of the vault core — the record
store, the derived consent index, and the audit log (spec sections 2 and 5). -/
structure VaultState where
  records : List (List Char × PatientRecord)
  consentIndex : List ((List Char × List Char) × Bool)
  audit : List AuditEntry
deriving DecidableEq

/-- Modelled from the spec: the empty system before any operation. -/
def initVaultState : VaultState :=
  { records := [], consentIndex := [], audit := [] }

/-- The stored hash of the last audit entry, or the given base hash for an
empty list. -/
def lastHashFrom (prev : AuditHash) (entries : List AuditEntry) : AuditHash :=
  match entries.getLast? with
  | some e => e.hash
  | none => prev

/-- The stored hash of the last audit entry, or genesis for an empty log. -/
def lastAuditHash (entries : List AuditEntry) : AuditHash :=
  lastHashFrom .genesis entries

/-- Modelled from the spec: the audit append each vault operation performs as
its final step (spec sections 4.2 and 4.3) — exactly one entry, linked to the
previous stored hash, carrying the next sequence number. -/
def appendAudit (st : VaultState) (actor action resource : List Char)
    (ts : Nat) (outcome : List Char) : VaultState :=
  { st with
    audit := st.audit ++
      [mkAuditEntry (lastAuditHash st.audit) (st.audit.length + 1)
        ⟨actor, action, resource, ts, outcome⟩] }

/-- Modelled from the spec: the state-changing or record-revealing vault
operations of spec section 4.2, with the actor and timestamp each request
carries. -/
inductive VaultOp where
  | createRecord (actor patient : List Char) (profile : Profile) (ts : Nat)
  | readRecord (actor patient requesterFacility : List Char) (ts : Nat)
  | updateConsentOp (actor patient facility : List Char) (granted : Bool) (ts : Nat)
  | appendAppointment (actor patient ref : List Char) (ts : Nat)
  | appendTreatmentNote (actor patient author created summary : List Char)
      (nextSteps : Option (List Char)) (ts : Nat)
deriving DecidableEq

/-- Update the consent set of a record: granting inserts the facility id once,
revoking removes it (spec section 4.2, update_consent). -/
def applyConsent (facility : List Char) (granted : Bool)
    (r : PatientRecord) : PatientRecord :=
  if granted then
    if facility ∈ r.consents then r
    else { r with consents := r.consents ++ [facility] }
  else { r with consents := r.consents.filter (fun f => f ≠ facility) }

/-- Replace the consent-index entry for a patient-facility pair. -/
def setConsentIndex (p f : List Char) (granted : Bool)
    (idx : List ((List Char × List Char) × Bool)) :
    List ((List Char × List Char) × Bool) :=
  ((p, f), granted) :: idx.filter (fun e => e.1 ≠ (p, f))

/-- Modelled from the spec: one vault operation — apply the effect when the
record exists and the request is admissible, then append exactly one audit
entry recording success or failure before returning (spec sections 4.2 and
4.3). The per-patient lock of spec section 5 serializes operations, which the
sequential step function realizes. -/
def vaultStep (st : VaultState) : VaultOp → VaultState
  | .createRecord actor patient profile ts =>
    match lookupRecord patient st.records with
    | some _ => appendAudit st actor "PatientCreated".toList patient ts "error".toList
    | none =>
        appendAudit
          { st with records := st.records ++
              [(patient, ⟨profile, [], [], []⟩)] }
          actor "PatientCreated".toList patient ts "ok".toList
  | .readRecord actor patient requesterFacility ts =>
    match lookupRecord patient st.records with
    | none => appendAudit st actor "RecordRead".toList patient ts "error".toList
    | some r =>
        if requesterFacility ∈ r.consents then
          appendAudit st actor "RecordRead".toList patient ts "ok".toList
        else
          appendAudit st actor "RecordRead".toList patient ts "error".toList
  | .updateConsentOp actor patient facility granted ts =>
    match lookupRecord patient st.records with
    | none => appendAudit st actor "ConsentUpdated".toList patient ts "error".toList
    | some _ =>
        appendAudit
          { st with
            records := updateRecord patient (applyConsent facility granted) st.records
            consentIndex := setConsentIndex patient facility granted st.consentIndex }
          actor "ConsentUpdated".toList patient ts "ok".toList
  | .appendAppointment actor patient ref ts =>
    match lookupRecord patient st.records with
    | none => appendAudit st actor "AppointmentAppended".toList patient ts "error".toList
    | some _ =>
        let records := updateRecord patient
          (fun r => { r with appointments := r.appointments ++ [ref] }) st.records
        appendAudit { st with records := records }
          actor "AppointmentAppended".toList patient ts "ok".toList
  | .appendTreatmentNote actor patient author created summary nextSteps ts =>
    match lookupRecord patient st.records with
    | none => appendAudit st actor "NoteAppended".toList patient ts "error".toList
    | some _ =>
        let records := updateRecord patient
          (fun r => { r with treatment_notes := r.treatment_notes ++
            [⟨r.treatment_notes.length + 1, author, created, summary, nextSteps⟩] })
          st.records
        appendAudit { st with records := records }
          actor "NoteAppended".toList patient ts "ok".toList

/-- Run a sequence of vault operations from a starting state. -/
def runVault (st : VaultState) : List VaultOp → VaultState
  | [] => st
  | op :: rest => runVault (vaultStep st op) rest

/-- Modelled from the spec: the closed role enumeration of spec section 3. -/
inductive Role where
  | patient
  | provider
  | clinic_admin
  | platform_admin
deriving DecidableEq

/-- Modelled from the spec: Session of spec section 3 — token, user, role,
optional facility, issue and expiry instants, revocation flag. -/
structure Session where
  token : List Char
  user_id : List Char
  role : Role
  facility_id : Option (List Char)
  issued_at : Nat
  expires_at : Nat
  revoked : Bool
deriving DecidableEq

/-- Modelled from the spec: the two distinct failure outcomes of validate
(spec section 4.5). -/
inductive SessionError where
  | SessionExpired
  | SessionRevoked
deriving DecidableEq

/-- Modelled from the spec: validate of spec section 4.5 — a revoked session
fails with SessionRevoked, a session past its expiry instant fails with
SessionExpired (expiry is checked at validate time), otherwise the session is
returned. -/
def validateSession (now : Nat) (s : Session) : Except SessionError Session :=
  if s.revoked then .error .SessionRevoked
  else if s.expires_at ≤ now then .error .SessionExpired
  else .ok s

/-- Modelled from the spec: revoke of spec section 4.5 marks the session
terminal immediately. -/
def revokeSession (s : Session) : Session :=
  { s with revoked := true }

/-- Modelled from the spec: the operations the session manager performs on an
existing session — validation at some instant, which does not modify the
session, and explicit revocation. -/
inductive SessionOp where
  | validate (t : Nat)
  | revoke
deriving DecidableEq

/-- Apply one session-manager operation to the stored session. -/
def sessionStep (s : Session) : SessionOp → Session
  | .validate _ => s
  | .revoke => revokeSession s

/-- Apply a sequence of session-manager operations to the stored session. -/
def applySessionOps (s : Session) : List SessionOp → Session
  | [] => s
  | op :: rest => applySessionOps (sessionStep s op) rest

/-- Whether a validate outcome grants access to an active session. -/
def sessionOk : Except SessionError Session → Bool
  | .ok _ => true
  | .error _ => false

/-- Modelled from the spec: serialize a string as its length followed by its
character codes. -/
def serStr (s : List Char) : List Nat :=
  s.length :: s.map Char.toNat

/-- Modelled from the spec: serialize a list of serializable items as the item
count followed by the serialized items. -/
def serList (ser : α → List Nat) (l : List α) : List Nat :=
  l.length :: (l.map ser).flatten

/-- Modelled from the spec: serialize an optional string with a presence tag. -/
def serOpt : Option (List Char) → List Nat
  | none => [0]
  | some s => 1 :: serStr s

/-- Modelled from the spec: serialize a treatment note field by field. -/
def serNote (n : TreatmentNote) : List Nat :=
  n.version :: (serStr n.author_id ++ serStr n.created_at ++ serStr n.summary ++
    serOpt n.next_steps)

/-- Modelled from the spec: re-serialize of spec section 4.2 — the decrypted
record rendered as a flat sequence of numbers, field by field. -/
def serializeRecord (r : PatientRecord) : List Nat :=
  serStr r.profile.first_name ++ serStr r.profile.last_name ++
    serStr r.profile.date_of_birth ++ serStr r.profile.phone_number ++
    serList serStr r.appointments ++ serList serStr r.consents ++
    serList serNote r.treatment_notes

/-- Read a fixed number of character codes from the stream. -/
def readChars : Nat → List Nat → Option (List Char × List Nat)
  | 0, rest => some ([], rest)
  | _ + 1, [] => none
  | k + 1, c :: rest =>
    match readChars k rest with
    | none => none
    | some (s, rest') => some (Char.ofNat c :: s, rest')

/-- Read one length-prefixed string from the stream. -/
def readStr : List Nat → Option (List Char × List Nat)
  | [] => none
  | k :: rest => readChars k rest

/-- Read a fixed number of items from the stream with the given item reader. -/
def readItems (rd : List Nat → Option (α × List Nat)) :
    Nat → List Nat → Option (List α × List Nat)
  | 0, rest => some ([], rest)
  | k + 1, rest =>
    match rd rest with
    | none => none
    | some (x, rest') =>
      match readItems rd k rest' with
      | none => none
      | some (xs, rest'') => some (x :: xs, rest'')

/-- Read one count-prefixed list from the stream. -/
def readList (rd : List Nat → Option (α × List Nat)) :
    List Nat → Option (List α × List Nat)
  | [] => none
  | k :: rest => readItems rd k rest

/-- Read one tagged optional string from the stream. -/
def readOpt : List Nat → Option (Option (List Char) × List Nat)
  | [] => none
  | 0 :: rest => some (none, rest)
  | 1 :: rest =>
    match readStr rest with
    | none => none
    | some (s, rest') => some (some s, rest')
  | _ :: _ => none

/-- Read one serialized treatment note from the stream. -/
def readNote : List Nat → Option (TreatmentNote × List Nat)
  | [] => none
  | v :: rest =>
    match readStr rest with
    | none => none
    | some (author, r1) =>
      match readStr r1 with
      | none => none
      | some (created, r2) =>
        match readStr r2 with
        | none => none
        | some (summary, r3) =>
          match readOpt r3 with
          | none => none
          | some (nextSteps, r4) => some (⟨v, author, created, summary, nextSteps⟩, r4)

/-- Parse one serialized patient record from the stream. -/
def readRecordSer (l : List Nat) : Option (PatientRecord × List Nat) :=
  match readStr l with
  | none => none
  | some (fn, r1) =>
    match readStr r1 with
    | none => none
    | some (ln, r2) =>
      match readStr r2 with
      | none => none
      | some (dob, r3) =>
        match readStr r3 with
        | none => none
        | some (ph, r4) =>
          match readList readStr r4 with
          | none => none
          | some (apps, r5) =>
            match readList readStr r5 with
            | none => none
            | some (cons, r6) =>
              match readList readNote r6 with
              | none => none
              | some (notes, r7) => some (⟨⟨fn, ln, dob, ph⟩, apps, cons, notes⟩, r7)

/-- Modelled from the spec: the keystream of an idealized symmetric stream
cipher, a concrete function of key, nonce and position. -/
def keystream (key nonce i : Nat) : Nat :=
  (key + 1) * (i + 1) + nonce

/-- Encrypt a serialized payload position by position with the keystream. -/
def encSeq (key nonce : Nat) : Nat → List Nat → List Nat
  | _, [] => []
  | i, p :: rest => (p + keystream key nonce i) :: encSeq key nonce (i + 1) rest

/-- Decrypt a ciphertext position by position with the keystream. -/
def decSeq (key nonce : Nat) : Nat → List Nat → List Nat
  | _, [] => []
  | i, c :: rest => (c - keystream key nonce i) :: decSeq key nonce (i + 1) rest

/-- Modelled from the spec: the authentication tag of the authenticated
encryption mode, a concrete function of key, nonce and plaintext. -/
def tagOf (key nonce : Nat) (payload : List Nat) : Nat :=
  payload.foldl (fun a b => a * 1000003 + b + 1) (key * 31 + nonce + 7)

/-- Modelled from the spec: the persisted blob — ciphertext, the nonce stored
alongside it, and the authentication tag (spec sections 4.2 and 6). -/
structure EncryptedBlob where
  nonce : Nat
  ciphertext : List Nat
  tag : Nat
deriving DecidableEq

/-- Modelled from the spec: encrypt of spec section 4.2 — serialize the record
and encrypt it under the patient key with a per-write nonce, storing the nonce
and the tag alongside the ciphertext. -/
def encryptRecord (key nonce : Nat) (r : PatientRecord) : EncryptedBlob :=
  let pt := serializeRecord r
  { nonce := nonce, ciphertext := encSeq key nonce 0 pt, tag := tagOf key nonce pt }

/-- Modelled from the spec: decrypt of spec section 4.2 — undo the keystream,
verify the authentication tag, parse the payload, and fail closed (none, the
VaultCorruption outcome) on any mismatch or parse failure. -/
def decryptRecord (key : Nat) (b : EncryptedBlob) : Option PatientRecord :=
  let pt := decSeq key b.nonce 0 b.ciphertext
  if tagOf key b.nonce pt = b.tag then
    match readRecordSer pt with
    | some (r, []) => some r
    | _ => none
  else none

example : parseOpeningHours "mo: 08 - 12".toList =
    [⟨0, "08".toList, "12".toList⟩] := by decide

example : parseOpeningHours "mo:08:00-12:00".toList = [] := by decide

example : parseOpeningHours "mo:08-12:30".toList =
    [⟨0, "08".toList, "12".toList⟩] := by decide

example : handleSpecialtySaveCleaned
    [" a ".toList, "".toList, "a".toList, "b".toList, "  ".toList, "b".toList] =
    ["a".toList, "b".toList] := by decide

example : verifyAuditChain (buildChain
    [⟨"p1".toList, "PatientCreated".toList, "p1".toList, 1, "ok".toList⟩,
     ⟨"f1".toList, "RecordRead".toList, "p1".toList, 2, "ok".toList⟩]) = none := by
  decide

/-- C1: the claim says handleConsentChange(f, g) sends an UpdateConsent request
whose requester_clinic_id field equals f. The code puts the facility id under
the property requesterFacilityId, which the updateConsent hook does not read:
at the failing input (logged-in patient p1, facility f1, grant true) the issued
request carries requester_clinic_id = none, and for every user, facility and
flag the requester_clinic_id field of the issued request is none. -/
theorem handleConsentChange_drops_facility_id :
    handleConsentChange (some ⟨"p1".toList⟩) "f1".toList true =
      some { urlPatientId := some "p1".toList
             body := { requester_clinic_id := none, grant := some true } } ∧
    ∀ (u : FrontendUser) (f : List Char) (g : Bool),
      (handleConsentChange (some u) f g).map
        (fun req => req.body.requester_clinic_id) = some none :=
  ⟨by decide, fun _ _ _ => rfl⟩

/-- C6: for a non-empty patient id, any two failing clinic patient-record
lookups produce identical state: the record is cleared and the one fixed
message is shown, independent of the failure cause; no internal error detail
reaches the state. -/
theorem handleClinicPatientLookup_uniform_failure :
    ∀ (pid : List Char) (st : ClinicLookupState) (e₁ e₂ : ApiFailure),
      pid ≠ [] →
      handleClinicPatientLookup pid (.error e₁) st =
        handleClinicPatientLookup pid (.error e₂) st ∧
      (handleClinicPatientLookup pid (.error e₁) st).clinicPatientError =
        "Patientenakte konnte nicht geladen werden.".toList ∧
      (handleClinicPatientLookup pid (.error e₁) st).clinicPatientRecord = none := by
  intro pid st e₁ e₂ h
  simp [handleClinicPatientLookup, h]

/-- Witness for C6 at a concrete patient id, state and two distinct failure
causes. -/
theorem handleClinicPatientLookup_uniform_failure_witness :
    handleClinicPatientLookup "p1".toList (.error .corruption) ⟨none, []⟩ =
      handleClinicPatientLookup "p1".toList (.error .networkFailure) ⟨none, []⟩ ∧
    (handleClinicPatientLookup "p1".toList (.error .corruption)
      ⟨none, []⟩).clinicPatientError =
        "Patientenakte konnte nicht geladen werden.".toList ∧
    (handleClinicPatientLookup "p1".toList (.error .corruption)
      ⟨none, []⟩).clinicPatientRecord = none :=
  handleClinicPatientLookup_uniform_failure "p1".toList ⟨none, []⟩
    .corruption .networkFailure (by decide)

/-- C10: for every interpretation of date values and every appointment list,
sortedPatientAppointments is a permutation of the input ordered by ascending
start date; the input list value itself is untouched since the sort runs on the
spread copy, which Lean list semantics renders as pure value passing. -/
theorem sortedPatientAppointments_perm_and_sorted :
    ∀ (jsDate : List Char → Int) (l : List Appointment),
      (sortedPatientAppointments jsDate l).Perm l ∧
      List.Pairwise (fun a b => jsDate a.start ≤ jsDate b.start)
        (sortedPatientAppointments jsDate l) := by
  intro jsDate l
  simp only [sortedPatientAppointments, jsSortByStart]
  constructor
  · exact List.mergeSort_perm l _
  · have h := @List.sorted_mergeSort Appointment
      (fun a b => decide (jsDate a.start - jsDate b.start ≤ 0))
      (fun a b c hab hbc => by
        simp only [decide_eq_true_eq, sub_nonpos] at *
        exact le_trans hab hbc)
      (fun a b => by
        simp only [Bool.or_eq_true, decide_eq_true_eq, sub_nonpos]
        exact le_total _ _)
      l
    exact h.imp (fun hab => by simpa [sub_nonpos] using hab)

theorem readChars_ser (s : List Char) (rest : List Nat) :
    readChars s.length (s.map Char.toNat ++ rest) = some (s, rest) := by
  induction s with
  | nil => rfl
  | cons c cs ih => simp [readChars, ih, Char.ofNat_toNat]

theorem readStr_ser (s : List Char) (rest : List Nat) :
    readStr (serStr s ++ rest) = some (s, rest) := by
  simp [serStr, readStr, readChars_ser]

theorem readItems_ser (rd : List Nat → Option (α × List Nat)) (ser : α → List Nat)
    (h : ∀ (x : α) (r : List Nat), rd (ser x ++ r) = some (x, r))
    (l : List α) (rest : List Nat) :
    readItems rd l.length ((l.map ser).flatten ++ rest) = some (l, rest) := by
  induction l with
  | nil => rfl
  | cons x xs ih => simp [readItems, List.append_assoc, h, ih]

theorem readList_ser (rd : List Nat → Option (α × List Nat)) (ser : α → List Nat)
    (h : ∀ (x : α) (r : List Nat), rd (ser x ++ r) = some (x, r))
    (l : List α) (rest : List Nat) :
    readList rd (serList ser l ++ rest) = some (l, rest) := by
  simp [serList, readList, readItems_ser rd ser h]

theorem readOpt_ser (o : Option (List Char)) (rest : List Nat) :
    readOpt (serOpt o ++ rest) = some (o, rest) := by
  cases o with
  | none => rfl
  | some s => simp [serOpt, readOpt, readStr_ser]

theorem readNote_ser (n : TreatmentNote) (rest : List Nat) :
    readNote (serNote n ++ rest) = some (n, rest) := by
  simp [serNote, readNote, List.append_assoc, readStr_ser, readOpt_ser]

theorem readRecordSer_ser (r : PatientRecord) (rest : List Nat) :
    readRecordSer (serializeRecord r ++ rest) = some (r, rest) := by
  simp [serializeRecord, readRecordSer, List.append_assoc, readStr_ser,
    readList_ser readStr serStr readStr_ser,
    readList_ser readNote serNote readNote_ser]

theorem decSeq_encSeq (key nonce : Nat) (l : List Nat) (i : Nat) :
    decSeq key nonce i (encSeq key nonce i l) = l := by
  induction l generalizing i with
  | nil => rfl
  | cons p rest ih => simp [encSeq, decSeq, ih]

/-- C3: decrypting the result of encrypting a record under the patient key and
any per-write nonce yields the original record. -/
theorem decrypt_encrypt_roundtrip :
    ∀ (key nonce : Nat) (r : PatientRecord),
      decryptRecord key (encryptRecord key nonce r) = some r := by
  intro key nonce r
  have hpt : decSeq key nonce 0 (encSeq key nonce 0 (serializeRecord r)) =
      serializeRecord r := decSeq_encSeq key nonce (serializeRecord r) 0
  have hread : readRecordSer (serializeRecord r) = some (r, []) := by
    simpa using readRecordSer_ser r []
  simp [decryptRecord, encryptRecord, hpt, hread]

theorem recomputeHash_mkAuditEntry (prev : AuditHash) (seq : Nat) (i : AuditInput) :
    recomputeHash prev (mkAuditEntry prev seq i) = (mkAuditEntry prev seq i).hash := rfl

theorem verifyFrom_buildFrom (inputs : List AuditInput) :
    ∀ (prev : AuditHash) (seq : Nat),
      verifyFrom prev seq (buildFrom prev seq inputs) = none := by
  induction inputs with
  | nil => intro prev seq; rfl
  | cons i rest ih =>
    intro prev seq
    simp only [buildFrom, verifyFrom, recomputeHash_mkAuditEntry, if_pos]
    exact ih _ _

theorem diffOne_breaks_recompute (prev : AuditHash) (e e' : AuditEntry)
    (hdiff : DiffersInOneField e e') (hok : recomputeHash prev e = e.hash) :
    recomputeHash prev e' ≠ e'.hash := by
  rcases hdiff with ⟨hne, he⟩ | ⟨hne, he⟩ | ⟨hne, he⟩ | ⟨hne, he⟩ |
    ⟨hne, he⟩ | ⟨hne, he⟩ | ⟨hne, he⟩ | ⟨hne, he⟩
  case inr.inr.inr.inr.inr.inr.inr.intro =>
    intro h
    have hrest : recomputeHash prev e' = recomputeHash prev e := by
      rw [he]; simp [recomputeHash]
    rw [hrest, hok] at h
    exact hne h.symm
  all_goals
    intro h
    have hh : e'.hash = e.hash := by rw [he]
    rw [hh, ← hok] at h
    simp only [recomputeHash, AuditHash.node.injEq] at h
  case inl.intro => exact hne h.2.1
  case inr.inl.intro => exact hne h.2.2.1
  case inr.inr.inl.intro => exact hne h.2.2.2.1
  case inr.inr.inr.inl.intro => exact hne h.2.2.2.2.1
  case inr.inr.inr.inr.inl.intro => exact hne h.2.2.2.2.2.1
  case inr.inr.inr.inr.inr.inl.intro => exact hne h.2.2.2.2.2.2.1
  case inr.inr.inr.inr.inr.inr.inl.intro => exact hne h.2.2.2.2.2.2.2

theorem verifyFrom_set_mutated (inputs : List AuditInput) :
    ∀ (prev : AuditHash) (seq k : Nat) (e e' : AuditEntry),
      (buildFrom prev seq inputs)[k]? = some e → DiffersInOneField e e' →
      verifyFrom prev seq ((buildFrom prev seq inputs).set k e') = some (seq + k) := by
  induction inputs with
  | nil => intro prev seq k e e' hget _; simp [buildFrom] at hget
  | cons i rest ih =>
    intro prev seq k e e' hget hdiff
    cases k with
    | zero =>
      simp only [buildFrom, List.getElem?_cons_zero, Option.some.injEq] at hget
      subst hget
      simp only [buildFrom, List.set]
      simp only [verifyFrom]
      rw [if_neg (diffOne_breaks_recompute prev _ e' hdiff
        (recomputeHash_mkAuditEntry prev seq i))]
      simp
    | succ k' =>
      simp only [buildFrom, List.getElem?_cons_succ] at hget
      simp only [buildFrom, List.set_cons_succ, verifyFrom,
        recomputeHash_mkAuditEntry, if_pos]
      rw [ih _ _ k' e e' hget hdiff]
      congr 1
      omega

/-- C2: appending N audit entries in order yields a chain that verifies as
valid, and mutating any one stored field of the entry at position k (sequence
number k plus one in one-based counting) makes verification return exactly
that sequence number as invalid_at. -/
theorem auditChain_valid_and_tamper_evident :
    ∀ (inputs : List AuditInput),
      verifyAuditChain (buildChain inputs) = none ∧
      ∀ (k : Nat) (e e' : AuditEntry),
        (buildChain inputs)[k]? = some e → DiffersInOneField e e' →
        verifyAuditChain ((buildChain inputs).set k e') = some (k + 1) := by
  intro inputs
  constructor
  · exact verifyFrom_buildFrom inputs .genesis 1
  · intro k e e' hget hdiff
    have h := verifyFrom_set_mutated inputs .genesis 1 k e e' hget hdiff
    simpa [verifyAuditChain, Nat.add_comm] using h

/-- Witness for C2: a concrete one-entry chain verifies, and mutating the
actor field of its entry makes verification report sequence number one. -/
theorem auditChain_valid_and_tamper_evident_witness :
    verifyAuditChain ((buildChain
      [⟨"a".toList, "b".toList, "c".toList, 1, "ok".toList⟩]).set 0
      { mkAuditEntry AuditHash.genesis 1
          ⟨"a".toList, "b".toList, "c".toList, 1, "ok".toList⟩ with
        actor_id := "z".toList }) = some 1 := by
  have h := (auditChain_valid_and_tamper_evident
    [⟨"a".toList, "b".toList, "c".toList, 1, "ok".toList⟩]).2 0
    (mkAuditEntry AuditHash.genesis 1
      ⟨"a".toList, "b".toList, "c".toList, 1, "ok".toList⟩)
    ({ mkAuditEntry AuditHash.genesis 1
        ⟨"a".toList, "b".toList, "c".toList, 1, "ok".toList⟩ with
      actor_id := "z".toList })
    (by decide) (by decide)
  simpa using h

theorem lastHashFrom_cons (prev : AuditHash) (e : AuditEntry) (rest : List AuditEntry) :
    lastHashFrom prev (e :: rest) = lastHashFrom e.hash rest := by
  cases rest with
  | nil => rfl
  | cons x xs =>
    cases h : (x :: xs).getLast? with
    | none => simp [List.getLast?_eq_none_iff] at h
    | some y => simp [lastHashFrom, List.getLast?_cons_cons, h]

theorem verifyFrom_append_one (au : List AuditEntry) :
    ∀ (prev : AuditHash) (seq : Nat) (i : AuditInput),
      verifyFrom prev seq au = none →
      verifyFrom prev seq
        (au ++ [mkAuditEntry (lastHashFrom prev au) (seq + au.length) i]) = none := by
  induction au with
  | nil =>
    intro prev seq i _
    simp [lastHashFrom, verifyFrom, recomputeHash_mkAuditEntry]
  | cons e rest ih =>
    intro prev seq i h
    simp only [verifyFrom] at h
    by_cases hc : recomputeHash prev e = e.hash
    · rw [if_pos hc] at h
      have harith : seq + (e :: rest).length = (seq + 1) + rest.length := by
        simp; omega
      simp only [List.cons_append, verifyFrom, if_pos hc, lastHashFrom_cons, harith]
      exact ih e.hash (seq + 1) i h
    · rw [if_neg hc] at h
      cases h

theorem appendAudit_audit (st : VaultState) (a act res : List Char) (ts : Nat)
    (out : List Char) :
    (appendAudit st a act res ts out).audit =
      st.audit ++ [mkAuditEntry (lastAuditHash st.audit) (st.audit.length + 1)
        ⟨a, act, res, ts, out⟩] := rfl

theorem chain_appendAudit (st : VaultState) (a act res : List Char) (ts : Nat)
    (out : List Char) (h : verifyAuditChain st.audit = none) :
    verifyAuditChain (appendAudit st a act res ts out).audit = none := by
  rw [appendAudit_audit]
  have h2 := verifyFrom_append_one st.audit .genesis 1 ⟨a, act, res, ts, out⟩ h
  simpa [verifyAuditChain, lastAuditHash, Nat.add_comm] using h2

theorem vaultStep_audit_shape (st : VaultState) (op : VaultOp) :
    ∃ (st' : VaultState) (a act res : List Char) (ts : Nat) (out : List Char),
      st'.audit = st.audit ∧ vaultStep st op = appendAudit st' a act res ts out := by
  cases op <;> dsimp only [vaultStep] <;> (repeat' split) <;>
    (refine ⟨_, _, _, _, _, _, ?_, rfl⟩; rfl)

theorem vaultStep_audit_len (st : VaultState) (op : VaultOp) :
    (vaultStep st op).audit.length = st.audit.length + 1 := by
  obtain ⟨st', a, act, res, ts, out, hau, hstep⟩ := vaultStep_audit_shape st op
  rw [hstep, appendAudit_audit, List.length_append, hau]
  rfl

theorem vaultStep_chain (st : VaultState) (op : VaultOp)
    (h : verifyAuditChain st.audit = none) :
    verifyAuditChain (vaultStep st op).audit = none := by
  obtain ⟨st', a, act, res, ts, out, hau, hstep⟩ := vaultStep_audit_shape st op
  rw [hstep]
  exact chain_appendAudit st' a act res ts out (by rw [hau]; exact h)

theorem runVault_audit_facts (ops : List VaultOp) :
    ∀ st : VaultState, verifyAuditChain st.audit = none →
      (runVault st ops).audit.length = st.audit.length + ops.length ∧
      verifyAuditChain (runVault st ops).audit = none := by
  induction ops with
  | nil => intro st h; exact ⟨by simp [runVault], h⟩
  | cons op rest ih =>
    intro st h
    have h2 := vaultStep_chain st op h
    obtain ⟨hl, hv⟩ := ih (vaultStep st op) h2
    refine ⟨?_, hv⟩
    show (runVault (vaultStep st op) rest).audit.length = st.audit.length + (op :: rest).length
    rw [hl, vaultStep_audit_len]
    simp
    omega

/-- C4: running any sequence of N vault operations from the empty system
produces exactly N audit entries — one per operation, success or failure —
and the resulting log is an unbroken chain that verifies as valid. -/
theorem vault_ops_one_audit_each_and_chain :
    ∀ ops : List VaultOp,
      (runVault initVaultState ops).audit.length = ops.length ∧
      verifyAuditChain (runVault initVaultState ops).audit = none := by
  intro ops
  have h := runVault_audit_facts ops initVaultState rfl
  simpa [initVaultState] using h

theorem lookupRecord_append (p : List Char) (l l' : List (List Char × PatientRecord)) :
    lookupRecord p (l ++ l') =
      match lookupRecord p l with
      | some r => some r
      | none => lookupRecord p l' := by
  induction l with
  | nil => rfl
  | cons x xs ih =>
    obtain ⟨q, r⟩ := x
    by_cases h : q = p <;> simp [lookupRecord, h, ih]

theorem lookupRecord_updateRecord (q p : List Char) (f : PatientRecord → PatientRecord)
    (l : List (List Char × PatientRecord)) :
    lookupRecord q (updateRecord p f l) =
      if q = p then (lookupRecord q l).map f else lookupRecord q l := by
  induction l with
  | nil => simp [lookupRecord, updateRecord]
  | cons x xs ih =>
    obtain ⟨a, r⟩ := x
    by_cases hap : a = p
    · by_cases haq : a = q
      · subst hap; subst haq
        simp [lookupRecord, updateRecord]
      · have hqp : q ≠ p := by intro hh; rw [hh] at haq; exact haq hap
        have hpq : p ≠ q := fun hh => hqp hh.symm
        simp [lookupRecord, updateRecord, hap, haq, hqp, hpq]
    · by_cases haq : a = q
      · have hqp : q ≠ p := by intro hh; rw [← haq] at hh; exact hap hh
        simp [lookupRecord, updateRecord, hap, haq, hqp]
      · simp [lookupRecord, updateRecord, hap, haq, ih]

theorem applyConsent_notes (facility : List Char) (granted : Bool) (r : PatientRecord) :
    (applyConsent facility granted r).treatment_notes = r.treatment_notes := by
  unfold applyConsent
  repeat' split
  all_goals rfl

theorem appendAudit_records (st : VaultState) (a act res : List Char) (ts : Nat)
    (out : List Char) : (appendAudit st a act res ts out).records = st.records := rfl

theorem vaultStep_notes_extend (st : VaultState) (op : VaultOp) (p : List Char)
    (rec : PatientRecord) (h : lookupRecord p st.records = some rec) :
    ∃ (rec' : PatientRecord) (suf : List TreatmentNote),
      lookupRecord p (vaultStep st op).records = some rec' ∧
      rec'.treatment_notes = rec.treatment_notes ++ suf := by
  cases op with
  | createRecord actor patient profile ts =>
    dsimp only [vaultStep]
    cases hl : lookupRecord patient st.records with
    | some r0 => exact ⟨rec, [], by simpa [appendAudit_records] using h, by simp⟩
    | none =>
      refine ⟨rec, [], ?_, by simp⟩
      rw [appendAudit_records]
      dsimp only
      rw [lookupRecord_append, h]
  | readRecord actor patient requesterFacility ts =>
    dsimp only [vaultStep]
    refine ⟨rec, [], ?_, by simp⟩
    cases hl : lookupRecord patient st.records with
    | some r0 =>
      by_cases hc : requesterFacility ∈ r0.consents <;>
        simp [hc, appendAudit_records, h]
    | none => simpa [appendAudit_records] using h
  | updateConsentOp actor patient facility granted ts =>
    dsimp only [vaultStep]
    cases hl : lookupRecord patient st.records with
    | some r0 =>
      rw [appendAudit_records]
      dsimp only
      rw [lookupRecord_updateRecord]
      by_cases hp : p = patient
      · refine ⟨applyConsent facility granted rec, [], ?_, by simp [applyConsent_notes]⟩
        subst hp
        simp [h]
      · exact ⟨rec, [], by simp [hp, h], by simp⟩
    | none => exact ⟨rec, [], by simpa [appendAudit_records] using h, by simp⟩
  | appendAppointment actor patient ref ts =>
    dsimp only [vaultStep]
    cases hl : lookupRecord patient st.records with
    | some r0 =>
      rw [appendAudit_records]
      dsimp only
      rw [lookupRecord_updateRecord]
      by_cases hp : p = patient
      · exact ⟨{ rec with appointments := rec.appointments ++ [ref] }, [],
          by subst hp; simp [h], by simp⟩
      · exact ⟨rec, [], by simp [hp, h], by simp⟩
    | none => exact ⟨rec, [], by simpa [appendAudit_records] using h, by simp⟩
  | appendTreatmentNote actor patient author created summary nextSteps ts =>
    dsimp only [vaultStep]
    cases hl : lookupRecord patient st.records with
    | some r0 =>
      rw [appendAudit_records]
      dsimp only
      rw [lookupRecord_updateRecord]
      by_cases hp : p = patient
      · exact ⟨{ rec with treatment_notes := rec.treatment_notes ++
            [⟨rec.treatment_notes.length + 1, author, created, summary, nextSteps⟩] },
          [⟨rec.treatment_notes.length + 1, author, created, summary, nextSteps⟩],
          by subst hp; simp [h], by simp⟩
      · exact ⟨rec, [], by simp [hp, h], by simp⟩
    | none => exact ⟨rec, [], by simpa [appendAudit_records] using h, by simp⟩

theorem vaultStep_versions (st : VaultState) (op : VaultOp)
    (hInv : ∀ (p : List Char) (rec : PatientRecord),
      lookupRecord p st.records = some rec →
      rec.treatment_notes.map (fun n => n.version) =
        List.range' 1 rec.treatment_notes.length) :
    ∀ (p : List Char) (rec : PatientRecord),
      lookupRecord p (vaultStep st op).records = some rec →
      rec.treatment_notes.map (fun n => n.version) =
        List.range' 1 rec.treatment_notes.length := by
  intro p rec h
  cases op with
  | createRecord actor patient profile ts =>
    dsimp only [vaultStep] at h
    cases hl : lookupRecord patient st.records with
    | some r0 =>
      rw [hl] at h
      rw [appendAudit_records] at h
      exact hInv p rec h
    | none =>
      rw [hl] at h
      rw [appendAudit_records] at h
      dsimp only at h
      rw [lookupRecord_append] at h
      cases hl2 : lookupRecord p st.records with
      | some r1 => rw [hl2] at h; cases h; exact hInv p _ hl2
      | none =>
        rw [hl2] at h
        by_cases hqp : patient = p
        · simp [lookupRecord, hqp] at h
          rw [← h]
          rfl
        · simp [lookupRecord, hqp] at h
  | readRecord actor patient requesterFacility ts =>
    dsimp only [vaultStep] at h
    cases hl : lookupRecord patient st.records with
    | some r0 =>
      rw [hl] at h
      by_cases hc : requesterFacility ∈ r0.consents <;>
        simp only [hc, if_pos, if_neg, ite_true, ite_false, appendAudit_records] at h <;>
        exact hInv p rec h
    | none =>
      rw [hl] at h
      rw [appendAudit_records] at h
      exact hInv p rec h
  | updateConsentOp actor patient facility granted ts =>
    dsimp only [vaultStep] at h
    cases hl : lookupRecord patient st.records with
    | some r0 =>
      rw [hl] at h
      rw [appendAudit_records] at h
      dsimp only at h
      rw [lookupRecord_updateRecord] at h
      by_cases hp : p = patient
      · rw [if_pos hp] at h
        cases hl2 : lookupRecord p st.records with
        | some r1 =>
          rw [hl2] at h
          cases h
          have := hInv p r1 hl2
          simpa [applyConsent_notes] using this
        | none => rw [hl2] at h; cases h
      · rw [if_neg hp] at h
        exact hInv p rec h
    | none =>
      rw [hl] at h
      rw [appendAudit_records] at h
      exact hInv p rec h
  | appendAppointment actor patient ref ts =>
    dsimp only [vaultStep] at h
    cases hl : lookupRecord patient st.records with
    | some r0 =>
      rw [hl] at h
      rw [appendAudit_records] at h
      dsimp only at h
      rw [lookupRecord_updateRecord] at h
      by_cases hp : p = patient
      · rw [if_pos hp] at h
        cases hl2 : lookupRecord p st.records with
        | some r1 =>
          rw [hl2] at h
          cases h
          simpa using hInv p r1 hl2
        | none => rw [hl2] at h; cases h
      · rw [if_neg hp] at h
        exact hInv p rec h
    | none =>
      rw [hl] at h
      rw [appendAudit_records] at h
      exact hInv p rec h
  | appendTreatmentNote actor patient author created summary nextSteps ts =>
    dsimp only [vaultStep] at h
    cases hl : lookupRecord patient st.records with
    | some r0 =>
      rw [hl] at h
      rw [appendAudit_records] at h
      dsimp only at h
      rw [lookupRecord_updateRecord] at h
      by_cases hp : p = patient
      · rw [if_pos hp] at h
        cases hl2 : lookupRecord p st.records with
        | some r1 =>
          rw [hl2] at h
          cases h
          have hv := hInv p r1 hl2
          simp only [List.map_append, List.length_append, hv]
          simp [List.range'_concat]
          omega
        | none => rw [hl2] at h; cases h
      · rw [if_neg hp] at h
        exact hInv p rec h
    | none =>
      rw [hl] at h
      rw [appendAudit_records] at h
      exact hInv p rec h

theorem runVault_versions (ops : List VaultOp) :
    ∀ st : VaultState,
      (∀ (p : List Char) (rec : PatientRecord),
        lookupRecord p st.records = some rec →
        rec.treatment_notes.map (fun n => n.version) =
          List.range' 1 rec.treatment_notes.length) →
      ∀ (p : List Char) (rec : PatientRecord),
        lookupRecord p (runVault st ops).records = some rec →
        rec.treatment_notes.map (fun n => n.version) =
          List.range' 1 rec.treatment_notes.length := by
  induction ops with
  | nil => intro st h; exact h
  | cons op rest ih => intro st h; exact ih (vaultStep st op) (vaultStep_versions st op h)

/-- C5: in every reachable vault state the treatment-note versions of every
patient read exactly 1, 2, ..., N in order with no gaps; every single
operation can only extend a patient's note list at its end, never altering or
removing existing versions; and appending three notes to a fresh patient
yields versions 1, 2, 3 in that exact order. -/
theorem treatment_notes_versioned_append_only :
    (∀ (ops : List VaultOp) (p : List Char) (rec : PatientRecord),
        lookupRecord p (runVault initVaultState ops).records = some rec →
        rec.treatment_notes.map (fun n => n.version) =
          List.range' 1 rec.treatment_notes.length) ∧
    (∀ (st : VaultState) (op : VaultOp) (p : List Char) (rec : PatientRecord),
        lookupRecord p st.records = some rec →
        ∃ (rec' : PatientRecord) (suf : List TreatmentNote),
          lookupRecord p (vaultStep st op).records = some rec' ∧
          rec'.treatment_notes = rec.treatment_notes ++ suf) ∧
    (lookupRecord "p".toList (runVault initVaultState
        [.createRecord "d".toList "p".toList ⟨[], [], [], []⟩ 1,
         .appendTreatmentNote "d".toList "p".toList "a".toList "t".toList "s".toList none 2,
         .appendTreatmentNote "d".toList "p".toList "a".toList "t".toList "s".toList none 3,
         .appendTreatmentNote "d".toList "p".toList "a".toList "t".toList "s".toList none 4]).records).map
      (fun r => r.treatment_notes.map (fun n => n.version)) = some [1, 2, 3] := by
  refine ⟨?_, ?_, ?_⟩
  · intro ops p rec h
    exact runVault_versions ops initVaultState (by intro p0 rec0 h0; cases h0) p rec h
  · intro st op p rec h
    exact vaultStep_notes_extend st op p rec h
  · decide

/-- Witness for C5 at concrete states and operations: a one-note record keeps
versions equal to the range from one, and one append step extends a concrete
stored note list. -/
theorem treatment_notes_versioned_append_only_witness :
    ([⟨1, "a".toList, "t".toList, "s".toList, none⟩] : List TreatmentNote).map
        (fun n => n.version) =
      List.range' 1 ([⟨1, "a".toList, "t".toList, "s".toList, none⟩] :
        List TreatmentNote).length ∧
    ∃ (rec' : PatientRecord) (suf : List TreatmentNote),
      lookupRecord "p".toList
        (vaultStep ⟨[("p".toList,
            ⟨⟨[], [], [], []⟩, [], [], [⟨1, "a".toList, "t".toList, "s".toList, none⟩]⟩)],
          [], []⟩
          (.appendTreatmentNote "d".toList "p".toList "a".toList "t".toList
            "s".toList none 2)).records = some rec' ∧
      rec'.treatment_notes =
        [⟨1, "a".toList, "t".toList, "s".toList, none⟩] ++ suf :=
  ⟨treatment_notes_versioned_append_only.1
      [.createRecord "d".toList "p".toList ⟨[], [], [], []⟩ 1,
       .appendTreatmentNote "d".toList "p".toList "a".toList "t".toList "s".toList none 2]
      "p".toList
      ⟨⟨[], [], [], []⟩, [], [], [⟨1, "a".toList, "t".toList, "s".toList, none⟩]⟩
      (by decide),
   treatment_notes_versioned_append_only.2.1
      ⟨[("p".toList,
          ⟨⟨[], [], [], []⟩, [], [], [⟨1, "a".toList, "t".toList, "s".toList, none⟩]⟩)],
        [], []⟩
      (.appendTreatmentNote "d".toList "p".toList "a".toList "t".toList "s".toList none 2)
      "p".toList
      ⟨⟨[], [], [], []⟩, [], [], [⟨1, "a".toList, "t".toList, "s".toList, none⟩]⟩
      (by decide)⟩

theorem applySessionOps_expires (ops : List SessionOp) :
    ∀ s : Session, (applySessionOps s ops).expires_at = s.expires_at := by
  induction ops with
  | nil => intro s; rfl
  | cons op rest ih =>
    intro s
    cases op with
    | validate t => exact ih s
    | revoke => exact ih (revokeSession s)

theorem applySessionOps_revoked (ops : List SessionOp) :
    ∀ s : Session, s.revoked = true → (applySessionOps s ops).revoked = true := by
  induction ops with
  | nil => intro s h; exact h
  | cons op rest ih =>
    intro s h
    cases op with
    | validate t => exact ih s h
    | revoke => exact ih (revokeSession s) rfl

/-- C7: a session that has once failed validation (expired or revoked) keeps
failing validation at every later instant after any further session-manager
operations — the end states are terminal and the session never returns to
active — and the two failure outcomes are distinct: SessionRevoked exactly
for revoked sessions, SessionExpired exactly for unrevoked sessions past
their expiry. -/
theorem session_end_states_terminal :
    (∀ (s : Session) (ops : List SessionOp) (t t' : Nat),
        t ≤ t' → sessionOk (validateSession t s) = false →
        sessionOk (validateSession t' (applySessionOps s ops)) = false) ∧
    (∀ (s : Session) (t : Nat),
        validateSession t s = .error .SessionRevoked ↔ s.revoked = true) ∧
    (∀ (s : Session) (t : Nat),
        validateSession t s = .error .SessionExpired ↔
          (s.revoked = false ∧ s.expires_at ≤ t)) := by
  refine ⟨?_, ?_, ?_⟩
  · intro s ops t t' htt hfail
    by_cases hr : s.revoked
    · have h2 := applySessionOps_revoked ops s hr
      simp [validateSession, sessionOk, h2]
    · have he : s.expires_at ≤ t := by
        by_contra hlt
        simp [validateSession, sessionOk, hr, hlt] at hfail
      by_cases hr2 : (applySessionOps s ops).revoked
      · simp [validateSession, sessionOk, hr2]
      · have he2 : (applySessionOps s ops).expires_at ≤ t' := by
          rw [applySessionOps_expires]
          omega
        simp [validateSession, sessionOk, hr2, he2]
  · intro s t
    by_cases hr : s.revoked
    · simp [validateSession, hr]
    · by_cases he : s.expires_at ≤ t <;> simp [validateSession, hr, he]
  · intro s t
    by_cases hr : s.revoked
    · simp [validateSession, hr]
    · by_cases he : s.expires_at ≤ t <;> simp [validateSession, hr, he]

/-- Witness for C7: a concrete session expired at instant five keeps failing at
instant six after a revoke operation, and the discrimination of the two
failure outcomes holds at a concrete revoked session. -/
theorem session_end_states_terminal_witness :
    sessionOk (validateSession 6 (applySessionOps
      ⟨"tok".toList, "u".toList, .patient, none, 0, 5, false⟩ [.revoke])) = false ∧
    (validateSession 3 ⟨"tok".toList, "u".toList, .patient, none, 0, 5, true⟩ =
        .error .SessionRevoked ↔
      (⟨"tok".toList, "u".toList, .patient, none, 0, 5, true⟩ : Session).revoked = true) :=
  ⟨session_end_states_terminal.1
      ⟨"tok".toList, "u".toList, .patient, none, 0, 5, false⟩ [.revoke] 5 6
      (by decide) (by decide),
   session_end_states_terminal.2.1
      ⟨"tok".toList, "u".toList, .patient, none, 0, 5, true⟩ 3⟩

theorem weekdayLookup_le (k : List Char) (w : Nat) (h : weekdayLookup k = some w) :
    w ≤ 6 := by
  unfold weekdayLookup at h
  repeat' split at h
  all_goals cases h
  all_goals omega

theorem parseOpeningLine_fields (line : List Char) (e : OpeningHour)
    (h : parseOpeningLine line = some e) :
    e.weekday ≤ 6 ∧ e.opens_at ≠ [] ∧ e.closes_at ≠ [] := by
  unfold parseOpeningLine at h
  split at h
  · cases h
  · split at h
    · cases h
    · split at h
      · cases h
      · split at h
        · cases h
        · rename_i weekday heqW
          split at h
          · cases h
          · split at h
            · cases h
            · split at h
              · cases h
              · rename_i hguard
                cases h
                push_neg at hguard
                exact ⟨weekdayLookup_le _ _ heqW, hguard.1, hguard.2⟩

theorem jsSplit_ne_nil (sep : Char) (l : List Char) : jsSplit sep l ≠ [] := by
  induction l with
  | nil => simp [jsSplit]
  | cons c rest ih =>
    unfold jsSplit
    split
    · simp
    · split
      · simp
      · simp

theorem jsSplit_cons_ne (sep c : Char) (l : List Char) (hc : ¬ c = sep) :
    jsSplit sep (c :: l) =
      (c :: (jsSplit sep l).headD []) :: (jsSplit sep l).tail := by
  conv_lhs => unfold jsSplit
  rw [if_neg hc]
  cases he : jsSplit sep l with
  | nil => exact absurd he (jsSplit_ne_nil sep l)
  | cons s ss => rfl

theorem jsSplit_head (sep : Char) (l : List Char) :
    (jsSplit sep l).head? = some (l.takeWhile (fun c => c ≠ sep)) := by
  induction l with
  | nil => rfl
  | cons c rest ih =>
    unfold jsSplit
    by_cases h : c = sep
    · simp [h, List.takeWhile_cons]
    · cases he : jsSplit sep rest with
      | nil => exact absurd he (jsSplit_ne_nil sep rest)
      | cons s ss =>
        rw [he] at ih
        simp only [List.head?_cons, Option.some.injEq] at ih
        simp [h, he, List.takeWhile_cons, ih]

theorem jsSplit_append_sep (sep : Char) (day rest : List Char) (h : sep ∉ day) :
    jsSplit sep (day ++ sep :: rest) = day :: jsSplit sep rest := by
  induction day with
  | nil => simp [jsSplit]
  | cons c cs ih =>
    have hc : ¬ c = sep := fun hh => h (by simp [hh])
    have hcs : sep ∉ cs := fun hm => h (List.mem_cons_of_mem c hm)
    show jsSplit sep (c :: (cs ++ sep :: rest)) = (c :: cs) :: jsSplit sep rest
    rw [jsSplit_cons_ne sep c _ hc, ih hcs]
    rfl

theorem jsSplit_no_sep (sep : Char) (l : List Char) (h : sep ∉ l) :
    jsSplit sep l = [l] := by
  induction l with
  | nil => rfl
  | cons c cs ih =>
    have hc : ¬ c = sep := fun hh => h (by simp [hh])
    have hcs : sep ∉ cs := fun hm => h (List.mem_cons_of_mem c hm)
    unfold jsSplit
    rw [if_neg hc, ih hcs]

theorem takeWhile_not_mem (a b : Char) (l : List Char)
    (hmem : a ∈ l.takeWhile (fun c => c ≠ b)) :
    b ∉ l.takeWhile (fun c => c ≠ a) := by
  induction l with
  | nil => simp at hmem
  | cons c t ih =>
    by_cases hcb : c = b
    · simp [List.takeWhile_cons, hcb] at hmem
    · by_cases hca : c = a
      · simp [List.takeWhile_cons, hca]
      · simp only [List.takeWhile_cons] at hmem
        rw [if_pos (by simp [hcb])] at hmem
        have hmem2 : a ∈ t.takeWhile (fun c => c ≠ b) := by
          rcases List.mem_cons.mp hmem with h1 | h2
          · exact absurd h1.symm hca
          · exact h2
        simp only [List.takeWhile_cons]
        rw [if_pos (by simp [hca])]
        intro hin
        rcases List.mem_cons.mp hin with h1 | h2
        · exact hcb h1.symm
        · exact ih hmem2 h2

theorem parseOpeningLine_colon_in_open_time (day rest : List Char)
    (hday : ':' ∉ day)
    (hcolon : ':' ∈ rest.takeWhile (fun c => c ≠ '-')) :
    parseOpeningLine (day ++ ':' :: rest) = none := by
  simp only [parseOpeningLine, jsSplit_append_sep ':' day rest hday, jsSplit_head]
  by_cases hguard : day = [] ∨ rest.takeWhile (fun c => c ≠ ':') = []
  · rw [if_pos hguard]
  · rw [if_neg hguard]
    cases hw : weekdayLookup ((jsToLower day).take 2) with
    | none => rfl
    | some w =>
      have hnd : '-' ∉ rest.takeWhile (fun c => c ≠ ':') :=
        takeWhile_not_mem ':' '-' rest hcolon
      simp only [hw, jsSplit_no_sep '-' _ hnd, List.map_cons, List.map_nil,
        List.head?_nil]

/-- C8 counterexample: the claim states that any line whose time-of-day
contains a colon yields no entry, but the line mo:08-12:30, whose closing time
12:30 contains a colon, yields the entry with weekday zero, opening 08 and
closing time truncated to 12 — it is not dropped. -/
theorem parseOpeningHours_colon_claim_false :
    parseOpeningHours "mo:08-12:30".toList = [⟨0, "08".toList, "12".toList⟩] ∧
    parseOpeningHours "mo:08-12:30".toList ≠ [] := by
  constructor <;> decide

/-- C8 amended: parseOpeningHours is total and returns only entries with
weekday between zero and six and non-empty opening and closing times; every
line it cannot parse is silently dropped; any line whose opening time contains
a colon — such as mo:08:00-12:00, where the split at every colon truncates the
time part before the dash — yields no entry; a line whose closing time alone
contains a colon may still yield an entry with the closing time truncated. -/
theorem parseOpeningHours_amended :
    (∀ (value : List Char) (e : OpeningHour), e ∈ parseOpeningHours value →
        e.weekday ≤ 6 ∧ e.opens_at ≠ [] ∧ e.closes_at ≠ []) ∧
    (∀ (day rest : List Char), ':' ∉ day →
        ':' ∈ rest.takeWhile (fun c => c ≠ '-') →
        parseOpeningLine (day ++ ':' :: rest) = none) ∧
    parseOpeningHours "mo:08:00-12:00".toList = [] := by
  refine ⟨?_, ?_, by decide⟩
  · intro value e hmem
    unfold parseOpeningHours at hmem
    split at hmem
    · cases hmem
    · obtain ⟨line, _, hline⟩ := List.mem_filterMap.mp hmem
      exact parseOpeningLine_fields line e hline
  · exact parseOpeningLine_colon_in_open_time

/-- Witness for C8 at concrete inputs: the entry parsed from a concrete valid
line has the claimed shape, and a concrete line whose opening time contains a
colon is dropped. -/
theorem parseOpeningHours_amended_witness :
    ((⟨0, "08".toList, "12".toList⟩ : OpeningHour).weekday ≤ 6 ∧
      (⟨0, "08".toList, "12".toList⟩ : OpeningHour).opens_at ≠ [] ∧
      (⟨0, "08".toList, "12".toList⟩ : OpeningHour).closes_at ≠ []) ∧
    parseOpeningLine ("mo".toList ++ ':' :: "08:00-12:00".toList) = none :=
  ⟨parseOpeningHours_amended.1 "mo: 08 - 12".toList
      ⟨0, "08".toList, "12".toList⟩ (by decide),
   parseOpeningHours_amended.2.1 "mo".toList "08:00-12:00".toList
      (by decide) (by decide)⟩

theorem dropWhile_head_false (p : α → Bool) (l : List α) (a : α)
    (h : l.head? = some a) (hp : p a = false) : l.dropWhile p = l := by
  cases l with
  | nil => cases h
  | cons x xs =>
    simp only [List.head?_cons, Option.some.injEq] at h
    subst h
    simp [List.dropWhile_cons, hp]

theorem dropWhile_cons_head_false (p : α → Bool) (l : List α) (x : α) (xs : List α)
    (he : l.dropWhile p = x :: xs) : p x = false := by
  induction l with
  | nil => cases he
  | cons y ys ih =>
    rw [List.dropWhile_cons] at he
    by_cases hy : p y
    · rw [if_pos hy] at he; exact ih he
    · rw [if_neg hy] at he
      cases he
      simpa using hy

theorem dropWhile_dropWhile (p : α → Bool) (l : List α) :
    (l.dropWhile p).dropWhile p = l.dropWhile p := by
  cases he : l.dropWhile p with
  | nil => rfl
  | cons x xs =>
    have hx : p x = false := dropWhile_cons_head_false p l x xs he
    simp [List.dropWhile_cons, hx]

theorem dropWhile_getLast (p : α → Bool) (l : List α) (a : α)
    (ha : l.getLast? = some a) (hpa : p a = false) :
    (l.dropWhile p).getLast? = some a := by
  induction l with
  | nil => cases ha
  | cons x xs ih =>
    cases hxs : xs with
    | nil =>
      subst hxs
      simp only [List.getLast?_singleton, Option.some.injEq] at ha
      subst ha
      simp [List.dropWhile_cons, hpa]
    | cons y ys =>
      subst hxs
      rw [List.getLast?_cons_cons] at ha
      by_cases hx : p x
      · rw [List.dropWhile_cons, if_pos hx]
        exact ih ha
      · rw [List.dropWhile_cons, if_neg hx]
        rw [List.getLast?_cons_cons]
        exact ha

theorem trimList_trimList (l : List Char) : trimList (trimList l) = trimList l := by
  have hdef : ∀ t : List Char, trimList t =
      ((t.dropWhile Char.isWhitespace).reverse.dropWhile Char.isWhitespace).reverse :=
    fun t => rfl
  cases hd : l.dropWhile Char.isWhitespace with
  | nil => simp [trimList, hd]
  | cons x xs =>
    have hx : Char.isWhitespace x = false := dropWhile_cons_head_false _ l x xs hd
    have hlast : ((x :: xs).reverse.dropWhile Char.isWhitespace).getLast? = some x := by
      apply dropWhile_getLast
      · simp [List.getLast?_reverse]
      · exact hx
    have hstep1 : (trimList l).dropWhile Char.isWhitespace = trimList l := by
      apply dropWhile_head_false _ _ x
      · rw [hdef l, hd, List.head?_reverse]
        exact hlast
      · exact hx
    rw [hdef (trimList l), hstep1, hdef l, List.reverse_reverse, dropWhile_dropWhile]

theorem specialtyFilter_sublist (l : List (List Char)) :
    ∀ seen : List (List Char), (specialtyFilter seen l).Sublist l := by
  induction l with
  | nil => intro seen; exact List.Sublist.refl []
  | cons x xs ih =>
    intro seen
    unfold specialtyFilter
    split
    · exact List.Sublist.cons₂ x (ih (x :: seen))
    · exact List.Sublist.cons x (ih (x :: seen))

theorem specialtyFilter_mem (l : List (List Char)) :
    ∀ (seen : List (List Char)) (x : List Char), x ∈ specialtyFilter seen l →
      x ≠ [] ∧ x ∉ seen := by
  induction l with
  | nil => intro seen x h; cases h
  | cons y ys ih =>
    intro seen x h
    unfold specialtyFilter at h
    split at h
    · rename_i hy
      rcases List.mem_cons.mp h with h1 | h2
      · subst h1; exact hy
      · have h3 := ih (y :: seen) x h2
        exact ⟨h3.1, fun hx => h3.2 (List.mem_cons_of_mem y hx)⟩
    · have h3 := ih (y :: seen) x h
      exact ⟨h3.1, fun hx => h3.2 (List.mem_cons_of_mem y hx)⟩

theorem specialtyFilter_nodup (l : List (List Char)) :
    ∀ seen : List (List Char), (specialtyFilter seen l).Nodup := by
  induction l with
  | nil => intro seen; exact List.nodup_nil
  | cons y ys ih =>
    intro seen
    unfold specialtyFilter
    split
    · refine List.Nodup.cons ?_ (ih (y :: seen))
      intro hy
      exact (specialtyFilter_mem ys (y :: seen) y hy).2 (List.mem_cons_self y seen)
    · exact ih (y :: seen)

theorem specialtyFilter_fixed (l : List (List Char)) :
    ∀ seen : List (List Char),
      (∀ x ∈ l, x ≠ [] ∧ x ∉ seen) → l.Nodup → specialtyFilter seen l = l := by
  induction l with
  | nil => intro seen _ _; rfl
  | cons y ys ih =>
    intro seen hall hnd
    have hy := hall y (List.mem_cons_self y ys)
    unfold specialtyFilter
    rw [if_pos hy]
    have hnd2 := List.nodup_cons.mp hnd
    rw [ih (y :: seen) ?_ hnd2.2]
    intro x hx
    have hxall := hall x (List.mem_cons_of_mem y hx)
    refine ⟨hxall.1, ?_⟩
    intro hmem
    rcases List.mem_cons.mp hmem with h1 | h2
    · subst h1; exact hnd2.1 hx
    · exact hxall.2 h2

theorem handleSpecialtySaveCleaned_trim_fixed (l : List (List Char)) :
    ∀ x ∈ handleSpecialtySaveCleaned l, trimList x = x := by
  intro x hx
  have hsub := specialtyFilter_sublist (l.map trimList) []
  have hmem := hsub.mem hx
  obtain ⟨y, _, hy⟩ := List.mem_map.mp hmem
  rw [← hy]
  exact trimList_trimList y

/-- C9: the specialty cleaning pipeline of handleSpecialtySave is idempotent,
and its output contains no empty entries and no duplicates while preserving
first-occurrence order (it is a sublist of the trimmed input). -/
theorem handleSpecialtySaveCleaned_idempotent :
    ∀ l : List (List Char),
      handleSpecialtySaveCleaned (handleSpecialtySaveCleaned l) =
        handleSpecialtySaveCleaned l ∧
      (handleSpecialtySaveCleaned l).Nodup ∧
      (∀ x ∈ handleSpecialtySaveCleaned l, x ≠ []) ∧
      (handleSpecialtySaveCleaned l).Sublist (l.map trimList) := by
  intro l
  have hnd := specialtyFilter_nodup (l.map trimList) ([] : List (List Char))
  refine ⟨?_, hnd, ?_, specialtyFilter_sublist (l.map trimList) []⟩
  · have hmap : (handleSpecialtySaveCleaned l).map trimList =
        handleSpecialtySaveCleaned l := by
      rw [List.map_congr_left
        (fun x hx => (handleSpecialtySaveCleaned_trim_fixed l x hx :
          trimList x = id x))]
      exact List.map_id (handleSpecialtySaveCleaned l)
    have hdef2 : handleSpecialtySaveCleaned (handleSpecialtySaveCleaned l) =
        specialtyFilter [] ((handleSpecialtySaveCleaned l).map trimList) := rfl
    rw [hdef2, hmap]
    apply specialtyFilter_fixed
    · intro x hx
      exact ⟨(specialtyFilter_mem (l.map trimList) [] x hx).1, List.not_mem_nil x⟩
    · exact hnd
  · intro x hx
    exact (specialtyFilter_mem (l.map trimList) [] x hx).1

/-- Witness for C9 at a concrete draft list: the pipeline output is unchanged
by a second application, and a concrete output entry is non-empty. -/
theorem handleSpecialtySaveCleaned_idempotent_witness :
    handleSpecialtySaveCleaned (handleSpecialtySaveCleaned
      [" a ".toList, "".toList, "a".toList, "b".toList]) =
      handleSpecialtySaveCleaned [" a ".toList, "".toList, "a".toList, "b".toList] ∧
    "a".toList ≠ ([] : List Char) :=
  ⟨(handleSpecialtySaveCleaned_idempotent
      [" a ".toList, "".toList, "a".toList, "b".toList]).1,
   (handleSpecialtySaveCleaned_idempotent
      [" a ".toList, "".toList, "a".toList, "b".toList]).2.2.1
      "a".toList (by decide)⟩
